import Mathlib

/-!
Verification development for the siglum-git repository: an OPFS-backed
filesystem adapter for isomorphic-git (OPFSGitAdapter) and a git
synchronization service (GitService).

Strings from the source are modelled as lists of characters (`List Char`)
so that splitting and joining can be reasoned about directly; byte
contents are modelled as `List Nat`.
-/

/-- The apostrophe character, used in adapter error messages around the path. -/
def quoteChar : Char := Char.ofNat 39

/- ## Path Resolver (OPFSGitAdapter.normalizePath / getPathParts) -/

/-- Source: `if (normalized.startsWith(sl)) normalized = normalized.slice(1)`
where the argument is one slash. -/
def dropLeadingSlash : List Char → List Char
  | '/' :: rest => rest
  | p => p

/-- Source: `if (normalized.endsWith(sl) && normalized.length > 0) normalized =
normalized.slice(0, -1)` for a single trailing slash; a string ending in a slash
is nonempty, so the length guard is implied by the pattern. -/
def dropTrailingSlash (p : List Char) : List Char :=
  match p.reverse with
  | '/' :: r => r.reverse
  | _ => p

/-- Source: `if (normalized.endsWith(slashDot)) normalized = normalized.slice(0, -2)`
removing a trailing slash-dot current-directory marker. -/
def dropTrailingDot (p : List Char) : List Char :=
  match p.reverse with
  | '.' :: '/' :: r => r.reverse
  | _ => p

/-- OPFSGitAdapter.normalizePath: strip one leading slash, one trailing slash,
then one trailing slash-dot marker, in that order. -/
def normalizePath (p : List Char) : List Char :=
  dropTrailingDot (dropTrailingSlash (dropLeadingSlash p))

/-- JavaScript `String.prototype.split` on the slash character: every slash
separates two (possibly empty) pieces; the empty string splits to one empty piece. -/
def splitSlash : List Char → List (List Char)
  | [] => [[]]
  | '/' :: rest => [] :: splitSlash rest
  | c :: rest =>
    match splitSlash rest with
    | [] => [[c]]
    | s :: ss => (c :: s) :: ss

/-- OPFSGitAdapter.getPathParts: normalize, then split on slashes, keeping only
nonempty parts that are not the single-dot current-directory marker. -/
def getPathParts (p : List Char) : List (List Char) :=
  let normalized := normalizePath p
  if normalized = [] then []
  else (splitSlash normalized).filter (fun part => part.length > 0 ∧ part ≠ ['.'])

/- ## Error Translator (OPFSGitAdapter.wrapError) -/

/-- A thrown JavaScript value as the adapter sees it: either a `DOMException`
(whose `code` is numeric, never a string) carrying its name and message, or a
plain `Error`-like value with an optional string `code` and a message. -/
inductive JsErr where
  | domEx (name : String) (message : List Char)
  | jsError (code : Option String) (message : List Char)
deriving DecidableEq, Repr

/-- Message built by wrapError for a NotFoundError, quoting the path. -/
def enoentMsg (filepath : List Char) : List Char :=
  "ENOENT: no such file or directory, ".toList ++ (quoteChar :: (filepath ++ [quoteChar]))

/-- Message built by wrapError for a TypeMismatchError, quoting the path. -/
def enotdirMsg (filepath : List Char) : List Char :=
  "ENOTDIR: not a directory, ".toList ++ (quoteChar :: (filepath ++ [quoteChar]))

/-- Message built by wrapError for an InvalidModificationError, quoting the path. -/
def enotemptyMsg (filepath : List Char) : List Char :=
  "ENOTEMPTY: directory not empty, ".toList ++ (quoteChar :: (filepath ++ [quoteChar]))

/-- OPFSGitAdapter.wrapError: an `Error` already carrying a string code passes
through unchanged; DOMException names NotFoundError / TypeMismatchError /
InvalidModificationError map to ENOENT / ENOTDIR / ENOTEMPTY with a message
naming the path; everything else becomes a generic EIO keeping the original
message. -/
def wrapError (err : JsErr) (filepath : List Char) : JsErr :=
  match err with
  | .jsError (some c) m => .jsError (some c) m
  | .jsError none m => .jsError (some "EIO") m
  | .domEx name m =>
    if name = "NotFoundError" then .jsError (some "ENOENT") (enoentMsg filepath)
    else if name = "TypeMismatchError" then .jsError (some "ENOTDIR") (enotdirMsg filepath)
    else if name = "InvalidModificationError" then
      .jsError (some "ENOTEMPTY") (enotemptyMsg filepath)
    else .jsError (some "EIO") m

/-- The raw not-found failure raised by OPFS handle lookups. -/
def nfErr : JsErr := .domEx "NotFoundError" []

/-- The raw type-mismatch failure raised by OPFS handle lookups (file where a
directory was expected or vice versa). -/
def tmErr : JsErr := .domEx "TypeMismatchError" []

/-- The raw failure raised by a non-recursive removeEntry on a non-empty directory. -/
def imErr : JsErr := .domEx "InvalidModificationError" []

/-- The plain `Error` thrown by getParentAndName on an empty segment list:
`new Error(invalidPathText + filepath)`; it has no string code. -/
def invalidPathErr (filepath : List Char) : JsErr :=
  .jsError none ("Invalid path: ".toList ++ filepath)

/- ## Filesystem model (OPFS directory tree behind the adapter)

OPFS addresses storage through a tree of named handles; a directory maps
names (which cannot contain a slash) to entries.  Children are kept as an
association list; creation appends and replacement keeps the map semantics
(OPFS gives no enumeration-order guarantee, and the spec promises none). -/

/-- An OPFS entry: a file with byte content, or a directory with named children. -/
inductive Entry where
  | file (content : List Nat)
  | dir (children : List (List Char × Entry))

/-- First entry bound to a name, as an OPFS name lookup would find it. -/
def lookupChild (n : List Char) : List (List Char × Entry) → Option Entry
  | [] => none
  | (k, v) :: rest => if k = n then some v else lookupChild n rest

/-- Remove every binding of a name (a well-formed OPFS directory has at most one). -/
def removeChild (n : List Char) (ch : List (List Char × Entry)) :
    List (List Char × Entry) :=
  ch.filter (fun kv => decide (kv.1 ≠ n))

/-- Bind a name to an entry, replacing any previous binding. -/
def setChild (n : List Char) (v : Entry) (ch : List (List Char × Entry)) :
    List (List Char × Entry) :=
  removeChild n ch ++ [(n, v)]

/-- Core of `promises.readFile` with no encoding requested: walk the parent
directories strictly (`getDirectoryHandle` without create: a missing segment
raises NotFoundError, a file in segment position raises TypeMismatchError),
then `getFileHandle(name)` on the leaf (missing raises NotFoundError, a
directory raises TypeMismatchError) and return the bytes. -/
def readAux : Entry → List (List Char) → Except JsErr (List Nat)
  | .dir ch, [n] =>
    match lookupChild n ch with
    | some (.file c) => .ok c
    | some (.dir _) => .error tmErr
    | none => .error nfErr
  | .dir ch, n :: m :: rest =>
    match lookupChild n ch with
    | some sub => readAux sub (m :: rest)
    | none => .error nfErr
  | .file _, _ :: _ => .error tmErr
  | _, [] => .error nfErr

/-- Core of `promises.writeFile`: walk the parent directories creating missing
ones (`ensureDir` on the parent chain followed by `getParentAndName` with
create — the former only creates directories the latter walk would create, so
the two walks are fused here), then `getFileHandle(name, create)` on the leaf
(a directory in the way raises TypeMismatchError) and replace the content
entirely via write-then-close. -/
def writeAux (d : List Nat) : Entry → List (List Char) → Except JsErr Entry
  | .dir ch, [n] =>
    match lookupChild n ch with
    | some (.dir _) => .error tmErr
    | _ => .ok (.dir (setChild n (.file d) ch))
  | .dir ch, n :: m :: rest =>
    match lookupChild n ch with
    | some (.dir sub) =>
      (writeAux d (.dir sub) (m :: rest)).map (fun sub2 => .dir (setChild n sub2 ch))
    | some (.file _) => .error tmErr
    | none =>
      (writeAux d (.dir []) (m :: rest)).map (fun sub2 => .dir (setChild n sub2 ch))
  | .file _, _ :: _ => .error tmErr
  | _, [] => .error (invalidPathErr [])

/-- Core of `promises.unlink`: strict parent walk, then `removeEntry(name)`
without recursion: a missing leaf raises NotFoundError and a non-empty
directory raises InvalidModificationError (an empty one is removed). -/
def unlinkAux : Entry → List (List Char) → Except JsErr Entry
  | .dir ch, [n] =>
    match lookupChild n ch with
    | some (.file _) => .ok (.dir (removeChild n ch))
    | some (.dir sub) =>
      if sub.isEmpty then .ok (.dir (removeChild n ch)) else .error imErr
    | none => .error nfErr
  | .dir ch, n :: m :: rest =>
    match lookupChild n ch with
    | some sub => (unlinkAux sub (m :: rest)).map (fun s2 => .dir (setChild n s2 ch))
    | none => .error nfErr
  | .file _, _ :: _ => .error tmErr
  | _, [] => .error nfErr

/-- `promises.readFile(filepath)` with no encoding: resolve the path parts
(an empty list makes getParentAndName throw the invalid-path Error), run the
handle walk, and wrap any failure through wrapError. -/
def fsReadFile (root : Entry) (p : List Char) : Except JsErr (List Nat) :=
  match getPathParts p with
  | [] => .error (wrapError (invalidPathErr p) p)
  | parts =>
    match readAux root parts with
    | .ok d => .ok d
    | .error e => .error (wrapError e p)

/-- `promises.writeFile(filepath, data)`: resolve the parts, run the creating
walk and leaf write, and wrap any failure through wrapError. -/
def fsWriteFile (root : Entry) (p : List Char) (d : List Nat) : Except JsErr Entry :=
  match getPathParts p with
  | [] => .error (wrapError (invalidPathErr p) p)
  | parts =>
    match writeAux d root parts with
    | .ok r => .ok r
    | .error e => .error (wrapError e p)

/-- `promises.unlink(filepath)`: resolve the parts, remove the leaf entry, and
wrap any failure through wrapError. -/
def fsUnlink (root : Entry) (p : List Char) : Except JsErr Entry :=
  match getPathParts p with
  | [] => .error (wrapError (invalidPathErr p) p)
  | parts =>
    match unlinkAux root parts with
    | .ok r => .ok r
    | .error e => .error (wrapError e p)

/-- `promises.rename(oldPath, newPath)`: read all bytes from the old path,
write them to the new path, then delete the old path; errors of the three
steps bubble to the caller unchanged (rename itself has no try block). -/
def fsRename (root : Entry) (oldPath newPath : List Char) : Except JsErr Entry :=
  match fsReadFile root oldPath with
  | .error e => .error e
  | .ok data =>
    match fsWriteFile root newPath data with
    | .error e => .error e
    | .ok r1 =>
      match fsUnlink r1 oldPath with
      | .error e => .error e
      | .ok r2 => .ok r2

/- ## GitService data model (types.ts and GitService state) -/

/-- GitConfig.provider: github for GitHub API features, git for generic git. -/
inductive Provider where
  | github
  | git
deriving DecidableEq, Repr

/-- GitConfig.syncInterval values. -/
inductive SyncInterval where
  | manual
  | min5
  | min15
  | min30
  | hour1
deriving DecidableEq, Repr

/-- GitConfig.conflictResolution values (recorded but never read by sync). -/
inductive ConflictResolution where
  | localSide
  | remoteSide
  | newest
deriving DecidableEq, Repr

/-- GitConfig from types.ts. -/
structure GitConfig where
  provider : Provider
  repoUrl : String
  branch : String
  token : String
  username : String
  syncInterval : SyncInterval
  conflictResolution : ConflictResolution
  autoSync : Bool
deriving DecidableEq, Repr

/-- GitStatus from types.ts; lastSync timestamps are abstract Nat instants. -/
structure GitStatus where
  isConnected : Bool
  isSyncing : Bool
  lastSync : Option Nat
  ahead : Nat
  behind : Nat
  hasChanges : Bool
  hasConflict : Bool
  error : Option String
deriving DecidableEq, Repr

/-- One row of isomorphic-git statusMatrix: filepath plus the three state
values (0 = absent, 1 = same as HEAD, 2 = different from HEAD) for HEAD,
workdir and stage. -/
structure MatrixRow where
  filepath : List Char
  head : Nat
  workdir : Nat
  stage : Nat
deriving DecidableEq, Repr

/-- FileChange.status from types.ts. -/
inductive ChangeKind where
  | untracked
  | added
  | modified
  | deleted
deriving DecidableEq, Repr

/-- FileChange from types.ts. -/
structure FileChange where
  path : List Char
  status : ChangeKind
deriving DecidableEq, Repr

/-- External git operations performed by the service; traced so that theorems
can state that an operation was or was not attempted. -/
inductive GitAction where
  | pullOp
  | pushOp
  | commitOp
  | cloneOp
deriving DecidableEq, Repr

/-- Outcomes of the external isomorphic-git collaborator calls during one
service operation, and the two resolved refs compared by checkRemote.  Each
fallible call either succeeds or throws the given error message. -/
structure GitEnv where
  statusMatrixResult : Except String (List MatrixRow)
  fetchResult : Except String Unit
  resolveHeadResult : Except String String
  resolveRemoteResult : Except String String
  pullResult : Except String Unit
  pushResult : Except String Unit
  addResult : Except String Unit
  stageResult : Except String Unit
  commitResult : Except String Unit
  cloneResult : Except String Unit
deriving Repr

/- ## Repository Session: authenticated remote URL (GitService.getRepoUrl) -/

/-- One anchored application of the regex stripping `https?://github.com/`
from the front of the stored URL. -/
def stripGithubHost (u : String) : String :=
  if u.startsWith "https://github.com/" then u.drop 19
  else if u.startsWith "http://github.com/" then u.drop 18
  else u

/-- One anchored application of the regex stripping a trailing `.git`. -/
def stripDotGit (u : String) : String :=
  if u.endsWith ".git" then u.dropRight 4 else u

/-- Credential injection performed by the URL object setters for username and
password followed by toString, modelled for an https URL that carries no
userinfo component yet: the credentials appear between the scheme separator
and the host. -/
def urlWithCredentials (u user pass : String) : String :=
  "https://" ++ user ++ ":" ++ pass ++ "@" ++ u.drop 8

/-- GitService.getRepoUrl on a present config.  For the github provider the
repository path is stripped and rebuilt into an authenticated https URL whose
user slot is the username, or the token when the username is empty (JavaScript
falsy).  For the generic provider, credentials are injected only when the
stored URL starts with https and the token is nonempty; otherwise the stored
URL is returned unchanged. -/
def getRepoUrl (cfg : GitConfig) : String :=
  match cfg.provider with
  | .github =>
    let repoPath := stripDotGit (stripGithubHost cfg.repoUrl)
    let authUser := if cfg.username = "" then cfg.token else cfg.username
    "https://" ++ authUser ++ ":" ++ cfg.token ++ "@github.com/" ++ repoPath ++ ".git"
  | .git =>
    if cfg.repoUrl.startsWith "https://" ∧ cfg.token ≠ "" then
      urlWithCredentials cfg.repoUrl (if cfg.username = "" then "git" else cfg.username)
        cfg.token
    else cfg.repoUrl

/- ## Change detection (GitService.getChanges) -/

/-- Does the list start with the given pattern (JavaScript String.startsWith). -/
def listStarts (pre s : List Char) : Bool :=
  decide (s.take pre.length = pre)

/-- The characters of the version-control metadata directory name. -/
def dotGitChars : List Char := ".git".toList

/-- The per-row classification of GitService.getChanges: the four recognized
(head, workdir, stage) triplets; anything else is not reported. -/
def classifyRow (head workdir stage : Nat) : Option ChangeKind :=
  if head = 0 ∧ workdir = 2 ∧ stage = 0 then some .untracked
  else if head = 0 ∧ workdir = 2 ∧ stage = 2 then some .added
  else if head = 1 ∧ workdir = 2 ∧ stage = 1 then some .modified
  else if head = 1 ∧ workdir = 0 ∧ stage = 0 then some .deleted
  else none

/-- The loop of GitService.getChanges over the status matrix: rows whose path
starts with `.git` are skipped, the rest are classified. -/
def classifyChanges : List MatrixRow → List FileChange
  | [] => []
  | r :: rest =>
    if listStarts dotGitChars r.filepath then classifyChanges rest
    else
      match classifyRow r.head r.workdir r.stage with
      | some s => { path := r.filepath, status := s } :: classifyChanges rest
      | none => classifyChanges rest

/-- GitService.getChanges: on a statusMatrix failure the catch returns an empty
list leaving status untouched; on success the changes are classified and
status.hasChanges is set to whether any were found. -/
def getChanges (st : GitStatus) (env : GitEnv) : List FileChange × GitStatus :=
  match env.statusMatrixResult with
  | .error _ => ([], st)
  | .ok rows =>
    let changes := classifyChanges rows
    (changes, { st with hasChanges := !changes.isEmpty })

/- ## checkRemote -/

/-- GitService.checkRemote: with no config it reports no changes; otherwise it
computes local changes, fetches and resolves the two heads, reports the two
booleans and stores their conjunction in hasConflict.  A failure of fetch or
of either ref resolution is caught and reported as no changes, keeping the
status as getChanges left it. -/
def checkRemote (cfg? : Option GitConfig) (st : GitStatus) (env : GitEnv) :
    (Bool × Bool) × GitStatus :=
  match cfg? with
  | none => ((false, false), st)
  | some _ =>
    let (localChanges, st1) := getChanges st env
    match env.fetchResult with
    | .error _ => ((false, false), st1)
    | .ok _ =>
      match env.resolveHeadResult with
      | .error _ => ((false, false), st1)
      | .ok localHead =>
        match env.resolveRemoteResult with
        | .error _ => ((false, false), st1)
        | .ok remoteHead =>
          let hasRemoteChanges := decide (localHead ≠ remoteHead)
          let hasLocalChanges := !localChanges.isEmpty
          (((hasRemoteChanges, hasLocalChanges)),
            { st1 with hasConflict := hasRemoteChanges && hasLocalChanges })

/- ## Foreground git operations (throwing methods)

Each throwing method is modelled as a pair: the outcome seen by the caller
(`Except` carrying the thrown message) and the status after the method ran,
plus a trace of the external git calls attempted. -/

/-- GitService.pull: without config it throws Not configured before touching
status; otherwise it marks syncing, clears the error, runs git.pull, on
success stamps lastSync and zeroes behind, on failure records and rethrows the
message; the finally block always clears isSyncing. -/
def pull (cfg? : Option GitConfig) (st : GitStatus) (env : GitEnv) (now : Nat) :
    Except String Unit × GitStatus × List GitAction :=
  match cfg? with
  | none => (.error "Not configured", st, [])
  | some _ =>
    let st1 := { st with isSyncing := true, error := none }
    match env.pullResult with
    | .ok _ =>
      (.ok (), { st1 with lastSync := some now, behind := 0, isSyncing := false },
        [.pullOp])
    | .error m =>
      (.error m, { st1 with error := some m, isSyncing := false }, [.pullOp])

/-- GitService.push: as pull, but on success zeroes ahead. -/
def push (cfg? : Option GitConfig) (st : GitStatus) (env : GitEnv) (now : Nat) :
    Except String Unit × GitStatus × List GitAction :=
  match cfg? with
  | none => (.error "Not configured", st, [])
  | some _ =>
    let st1 := { st with isSyncing := true, error := none }
    match env.pushResult with
    | .ok _ =>
      (.ok (), { st1 with lastSync := some now, ahead := 0, isSyncing := false },
        [.pushOp])
    | .error m =>
      (.error m, { st1 with error := some m, isSyncing := false }, [.pushOp])

/-- GitService.clone: without config it throws Not configured; otherwise marks
syncing, clears the error, clears the git directory and runs git.clone, on
success stamps lastSync, on failure records and rethrows; finally clears
isSyncing.  The cleared and recloned directory contents live outside this
status model. -/
def clone (cfg? : Option GitConfig) (st : GitStatus) (env : GitEnv) (now : Nat) :
    Except String Unit × GitStatus × List GitAction :=
  match cfg? with
  | none => (.error "Not configured", st, [])
  | some _ =>
    let st1 := { st with isSyncing := true, error := none }
    match env.cloneResult with
    | .ok _ =>
      (.ok (), { st1 with lastSync := some now, isSyncing := false }, [.cloneOp])
    | .error m =>
      (.error m, { st1 with error := some m, isSyncing := false }, [.cloneOp])

/-- GitService.commit: without config it throws Not configured; otherwise runs
git.add on the dot path then git.commit, on success increments ahead and
clears hasChanges, on failure records the message and rethrows. -/
def commit (cfg? : Option GitConfig) (st : GitStatus) (env : GitEnv) :
    Except String Unit × GitStatus × List GitAction :=
  match cfg? with
  | none => (.error "Not configured", st, [])
  | some _ =>
    match env.addResult with
    | .error m => (.error m, { st with error := some m }, [])
    | .ok _ =>
      match env.commitResult with
      | .error m => (.error m, { st with error := some m }, [.commitOp])
      | .ok _ =>
        (.ok (), { st with ahead := st.ahead + 1, hasChanges := false }, [.commitOp])

/-- Does some matrix row outside the metadata directory need staging
(workdir differs from stage), so that the staging loop body runs? -/
def stageNeeded (rows : List MatrixRow) : Bool :=
  rows.any (fun r => !listStarts dotGitChars r.filepath && r.workdir != r.stage)

/-- Did this collaborator call throw? -/
def threw {α : Type} : Except String α → Bool
  | .error _ => true
  | .ok _ => false

/-- GitService.commitAllChanges: without config it returns silently.  It reads
the status matrix, stages every row whose workdir differs from its stage
(remove when the workdir lacks the file, add otherwise), then commits; on
success increments ahead and clears hasChanges.  Every failure inside is
caught and only logged: the method never throws and a failure leaves the
status unchanged. -/
def commitAllChanges (cfg? : Option GitConfig) (st : GitStatus) (env : GitEnv)
    (message : String) : GitStatus × List GitAction :=
  match cfg? with
  | none => (st, [])
  | some _ =>
    match env.statusMatrixResult with
    | .error _ => (st, [])
    | .ok rows =>
      if stageNeeded rows && threw env.stageResult then (st, [])
      else
        match env.commitResult with
        | .error _ => (st, [])
        | .ok _ =>
          let _ := message
          ({ st with ahead := st.ahead + 1, hasChanges := false }, [.commitOp])

/- ## sync and the force operations -/

/-- The tail of GitService.sync after the pull step: when the ahead counter is
positive the push method runs, then the conflict flag is cleared and lastSync
stamped; a push failure lands in the sync catch which records the message; the
finally block clears isSyncing. -/
def syncTail (cfg : GitConfig) (st : GitStatus) (tr : List GitAction) (env : GitEnv)
    (now : Nat) : GitStatus × List GitAction :=
  if st.ahead > 0 then
    match push (some cfg) st env now with
    | (.ok _, st2, tr2) =>
      ({ st2 with hasConflict := false, lastSync := some now, isSyncing := false },
        tr ++ tr2)
    | (.error m, st2, tr2) =>
      ({ st2 with error := some m, isSyncing := false }, tr ++ tr2)
  else
    ({ st with hasConflict := false, lastSync := some now, isSyncing := false }, tr)

/-- GitService.sync: returns silently with no config, and silently when a sync
is already marked running (the re-entrancy guard).  Otherwise it marks
syncing, clears the error, and asks checkRemote; when both sides changed it
declares the conflict, records the explanatory error and stops; when only
local changes exist it commits them through commitAllChanges (which never
throws); when remote changes exist it pulls (a pull failure is caught and its
message recorded); finally, with a positive ahead counter it pushes, clears
the conflict flag and stamps lastSync.  The finally block always clears
isSyncing on the paths past the guard. -/
def sync (cfg? : Option GitConfig) (st : GitStatus) (env : GitEnv) (now : Nat) :
    GitStatus × List GitAction :=
  match cfg? with
  | none => (st, [])
  | some cfg =>
    if st.isSyncing then (st, [])
    else
      let st1 := { st with isSyncing := true, error := none }
      let ((hasRemoteChanges, hasLocalChanges), st2) := checkRemote (some cfg) st1 env
      if hasRemoteChanges && hasLocalChanges then
        ({ st2 with
            hasConflict := true
            error := some "Conflict: both local and remote have changes"
            isSyncing := false }, [])
      else
        let (st3, tr1) :=
          if hasLocalChanges then
            commitAllChanges (some cfg) st2 env "Auto-save from Siglum"
          else (st2, [])
        if hasRemoteChanges then
          match pull (some cfg) st3 env now with
          | (.ok _, st4, tr2) => syncTail cfg st4 (tr1 ++ tr2) env now
          | (.error m, st4, tr2) =>
            ({ st4 with error := some m, isSyncing := false }, tr1 ++ tr2)
        else syncTail cfg st3 tr1 env now

/-- GitService.forcePull: returns silently with no config; otherwise marks
syncing (without clearing the error), clears the git directory and reclones,
on success clears the conflict flag and stamps lastSync, on failure records
the message; finally clears isSyncing. -/
def forcePull (cfg? : Option GitConfig) (st : GitStatus) (env : GitEnv) (now : Nat) :
    GitStatus × List GitAction :=
  match cfg? with
  | none => (st, [])
  | some _ =>
    let st1 := { st with isSyncing := true }
    match env.cloneResult with
    | .ok _ =>
      ({ st1 with hasConflict := false, lastSync := some now, isSyncing := false },
        [.cloneOp])
    | .error m =>
      ({ st1 with error := some m, isSyncing := false }, [.cloneOp])

/-- GitService.forcePush: returns silently with no config; otherwise marks
syncing, computes changes, commits them when any exist, then force-pushes; on
success clears the conflict flag and stamps lastSync, on failure records the
message; finally clears isSyncing. -/
def forcePush (cfg? : Option GitConfig) (st : GitStatus) (env : GitEnv) (now : Nat) :
    GitStatus × List GitAction :=
  match cfg? with
  | none => (st, [])
  | some cfg =>
    let st1 := { st with isSyncing := true }
    let (changes, st2) := getChanges st1 env
    let (st3, tr1) :=
      if !changes.isEmpty then
        commitAllChanges (some cfg) st2 env "Auto-save from Siglum"
      else (st2, [])
    match env.pushResult with
    | .ok _ =>
      ({ st3 with hasConflict := false, lastSync := some now, isSyncing := false },
        tr1 ++ [.pushOp])
    | .error m =>
      ({ st3 with error := some m, isSyncing := false }, tr1 ++ [.pushOp])

/- ## File tree rebuild (GitService.buildFileTree) -/

/-- FileItem from types.ts, without the random display id (generateId draws on
the clock and a random source, which carry no information the tree properties
depend on). -/
inductive FileItem where
  | file (name path : List Char)
  | folder (name path : List Char) (children : List FileItem)

/-- The item path built by buildFileTree: a root-level entry is slash-name,
a nested one extends the parent relative path with slash-name. -/
def childPath (relativePath n : List Char) : List Char :=
  if relativePath = [] then '/' :: n else relativePath ++ '/' :: n

mutual

/-- GitService.buildFileTree: list the directory (listing a file fails and the
catch returns an empty item list), skip any entry named `.git`, and emit a
folder item with recursively built children or a file item, with paths rooted
at the relative path. -/
def buildFileTree : Entry → List Char → List FileItem
  | .file _, _ => []
  | .dir ch, relativePath => buildItems ch relativePath

/-- The loop body of buildFileTree over the directory entries. -/
def buildItems : List (List Char × Entry) → List Char → List FileItem
  | [], _ => []
  | (n, sub) :: rest, relativePath =>
    if n = dotGitChars then buildItems rest relativePath
    else
      let itemPath := childPath relativePath n
      match sub with
      | .dir _ => .folder n itemPath (buildFileTree sub itemPath)
          :: buildItems rest relativePath
      | .file _ => .file n itemPath :: buildItems rest relativePath

end

mutual

/-- All paths appearing in a file tree item, including its descendants. -/
def itemPathsOf : FileItem → List (List Char)
  | .file _ p => [p]
  | .folder _ p children => p :: treePaths children

/-- All paths appearing in a list of file tree items. -/
def treePaths : List FileItem → List (List Char)
  | [] => []
  | it :: rest => itemPathsOf it ++ treePaths rest

end

/-- OPFS accepts only names without a slash; a storage tree all of whose names
satisfy this is valid.  Entries named with a slash cannot exist in OPFS. -/
inductive ValidEntry : Entry → Prop where
  | file (c : List Nat) : ValidEntry (.file c)
  | dir (ch : List (List Char × Entry))
      (hn : ∀ p ∈ ch, '/' ∉ p.1)
      (h : ∀ p ∈ ch, ValidEntry p.2) : ValidEntry (.dir ch)

/- ## Lemmas about the children map -/

lemma removeChild_cons (n k : List Char) (v : Entry) (rest : List (List Char × Entry)) :
    removeChild n ((k, v) :: rest) =
      if k = n then removeChild n rest else (k, v) :: removeChild n rest := by
  by_cases hk : k = n <;> simp [removeChild, List.filter_cons, hk]

lemma lookupChild_removeChild_self (n : List Char) (ch : List (List Char × Entry)) :
    lookupChild n (removeChild n ch) = none := by
  induction ch with
  | nil => simp [removeChild, lookupChild]
  | cons kv rest ih =>
    rcases kv with ⟨k, v⟩
    rw [removeChild_cons]
    by_cases hk : k = n
    · simpa [hk] using ih
    · simp [hk, lookupChild, ih]

lemma lookupChild_removeChild_ne (n m : List Char) (ch : List (List Char × Entry))
    (h : m ≠ n) : lookupChild m (removeChild n ch) = lookupChild m ch := by
  induction ch with
  | nil => simp [removeChild, lookupChild]
  | cons kv rest ih =>
    rcases kv with ⟨k, v⟩
    rw [removeChild_cons]
    by_cases hk : k = n
    · subst hk
      simp [lookupChild, Ne.symm h, ih]
    · by_cases hm : k = m <;> simp [lookupChild, hk, hm, h, ih]

lemma lookupChild_append (n : List Char) (a b : List (List Char × Entry)) :
    lookupChild n (a ++ b) =
      (match lookupChild n a with
       | some v => some v
       | none => lookupChild n b) := by
  induction a with
  | nil => simp [lookupChild]
  | cons kv rest ih =>
    by_cases hk : kv.1 = n
    · simp [lookupChild, hk]
    · simp [lookupChild, hk, ih]

lemma lookupChild_setChild_self (n : List Char) (v : Entry)
    (ch : List (List Char × Entry)) : lookupChild n (setChild n v ch) = some v := by
  simp [setChild, lookupChild_append, lookupChild_removeChild_self, lookupChild]

lemma lookupChild_setChild_ne (n m : List Char) (v : Entry)
    (ch : List (List Char × Entry)) (h : m ≠ n) :
    lookupChild m (setChild n v ch) = lookupChild m ch := by
  simp [setChild, lookupChild_append, lookupChild_removeChild_ne n m ch h,
    lookupChild, Ne.symm h]
  cases lookupChild m ch <;> simp

/- ## Write-then-read and unlink lemmas over the tree walks -/

lemma writeAux_readAux :
    ∀ (parts : List (List Char)) (e : Entry) (d : List Nat) (e2 : Entry),
      writeAux d e parts = .ok e2 → readAux e2 parts = .ok d := by
  intro parts
  induction parts with
  | nil => intro e d e2 h; cases e <;> simp [writeAux] at h
  | cons n rest ih =>
    intro e d e2 h
    cases rest with
    | nil =>
      cases e with
      | file c => simp [writeAux] at h
      | dir ch =>
        cases hl : lookupChild n ch with
        | none =>
          simp [writeAux, hl] at h
          subst h
          simp [readAux, lookupChild_setChild_self]
        | some v =>
          cases v with
          | file c2 =>
            simp [writeAux, hl] at h
            subst h
            simp [readAux, lookupChild_setChild_self]
          | dir sub => simp [writeAux, hl] at h
    | cons m rest2 =>
      cases e with
      | file c => simp [writeAux] at h
      | dir ch =>
        cases hl : lookupChild n ch with
        | none =>
          cases hw : writeAux d (.dir []) (m :: rest2) with
          | error e3 => simp [writeAux, hl, hw, Except.map] at h
          | ok sub2 =>
            simp [writeAux, hl, hw, Except.map] at h
            subst h
            simp [readAux, lookupChild_setChild_self]
            exact ih _ _ _ hw
        | some v =>
          cases v with
          | file c2 => simp [writeAux, hl] at h
          | dir sub =>
            cases hw : writeAux d (.dir sub) (m :: rest2) with
            | error e3 => simp [writeAux, hl, hw, Except.map] at h
            | ok sub2 =>
              simp [writeAux, hl, hw, Except.map] at h
              subst h
              simp [readAux, lookupChild_setChild_self]
              exact ih _ _ _ hw

lemma unlinkAux_frame :
    ∀ (pa : List (List Char)) (e e2 : Entry) (pb : List (List Char)) (d : List Nat),
      unlinkAux e pa = .ok e2 → pa ≠ pb → readAux e pb = .ok d →
      readAux e2 pb = .ok d := by
  intro pa
  induction pa with
  | nil => intro e e2 pb d h _ _; cases e <;> simp [unlinkAux] at h
  | cons n rest ih =>
    intro e e2 pb d h hne hr
    cases rest with
    | nil =>
      cases e with
      | file c => simp [unlinkAux] at h
      | dir ch =>
        have hrm : ∃ sub, lookupChild n ch = some sub ∧ e2 = .dir (removeChild n ch) ∧
            (∀ c2, sub = Entry.file c2 → True) ∧
            (∀ sub2, sub = Entry.dir sub2 → sub2 = []) := by
          cases hl : lookupChild n ch with
          | none => simp [unlinkAux, hl] at h
          | some v =>
            cases v with
            | file c2 =>
              simp [unlinkAux, hl] at h
              exact ⟨_, rfl, h.symm, fun _ _ => trivial, fun _ hh => by cases hh⟩
            | dir sub2 =>
              by_cases hs : sub2.isEmpty
              · simp [unlinkAux, hl, hs] at h
                refine ⟨_, rfl, h.symm, fun _ _ => trivial, fun s3 hh => ?_⟩
                cases hh
                simpa [List.isEmpty_iff] using hs
              · simp [unlinkAux, hl, hs] at h
        rcases hrm with ⟨sub, hl, he2, _, hdir⟩
        subst he2
        cases pb with
        | nil => simp [readAux] at hr
        | cons m pb2 =>
          cases pb2 with
          | nil =>
            by_cases hm : m = n
            · exact absurd (by rw [hm]) hne
            · simp [readAux] at hr ⊢
              rwa [lookupChild_removeChild_ne n m ch (fun hh => hm hh)]
          | cons m2 pb3 =>
            by_cases hm : m = n
            · subst hm
              simp [readAux, hl] at hr
              cases sub with
              | file c2 => simp [readAux] at hr
              | dir sub2 =>
                have : sub2 = [] := hdir sub2 rfl
                subst this
                cases pb3 with
                | nil => simp [readAux, lookupChild] at hr
                | cons a b => simp [readAux, lookupChild] at hr
            · simp [readAux] at hr ⊢
              rwa [lookupChild_removeChild_ne n m ch (fun hh => hm hh)]
    | cons n2 rest2 =>
      cases e with
      | file c => simp [unlinkAux] at h
      | dir ch =>
        cases hl : lookupChild n ch with
        | none => simp [unlinkAux, hl] at h
        | some sub =>
          cases hu : unlinkAux sub (n2 :: rest2) with
          | error e3 => simp [unlinkAux, hl, hu, Except.map] at h
          | ok sub2 =>
            simp [unlinkAux, hl, hu, Except.map] at h
            subst h
            cases pb with
            | nil => simp [readAux] at hr
            | cons m pb2 =>
              cases pb2 with
              | nil =>
                by_cases hm : m = n
                · subst hm
                  simp [readAux, hl] at hr
                  cases sub with
                  | file c2 =>
                    simp [unlinkAux] at hu
                  | dir s3 => simp at hr
                · simp [readAux] at hr ⊢
                  rwa [lookupChild_setChild_ne n m sub2 ch (fun hh => hm hh)]
              | cons m2 pb3 =>
                by_cases hm : m = n
                · subst hm
                  simp [readAux, hl] at hr
                  have hne2 : (n2 :: rest2) ≠ (m2 :: pb3) := by
                    intro hh
                    exact hne (by rw [hh])
                  have := ih sub sub2 (m2 :: pb3) d hu hne2 hr
                  simp [readAux, lookupChild_setChild_self]
                  exact this
                · simp [readAux] at hr ⊢
                  rwa [lookupChild_setChild_ne n m sub2 ch (fun hh => hm hh)]

lemma unlinkAux_gone :
    ∀ (pa : List (List Char)) (e e2 : Entry),
      unlinkAux e pa = .ok e2 → readAux e2 pa = .error nfErr := by
  intro pa
  induction pa with
  | nil => intro e e2 h; cases e <;> simp [unlinkAux] at h
  | cons n rest ih =>
    intro e e2 h
    cases rest with
    | nil =>
      cases e with
      | file c => simp [unlinkAux] at h
      | dir ch =>
        cases hl : lookupChild n ch with
        | none => simp [unlinkAux, hl] at h
        | some v =>
          cases v with
          | file c2 =>
            simp [unlinkAux, hl] at h
            subst h
            simp [readAux, lookupChild_removeChild_self]
          | dir sub2 =>
            by_cases hs : sub2.isEmpty
            · simp [unlinkAux, hl, hs] at h
              subst h
              simp [readAux, lookupChild_removeChild_self]
            · simp [unlinkAux, hl, hs] at h
    | cons n2 rest2 =>
      cases e with
      | file c => simp [unlinkAux] at h
      | dir ch =>
        cases hl : lookupChild n ch with
        | none => simp [unlinkAux, hl] at h
        | some sub =>
          cases hu : unlinkAux sub (n2 :: rest2) with
          | error e3 => simp [unlinkAux, hl, hu, Except.map] at h
          | ok sub2 =>
            simp [unlinkAux, hl, hu, Except.map] at h
            subst h
            simp [readAux, lookupChild_setChild_self]
            exact ih sub sub2 hu

/- ## Wrapper inversion lemmas -/

lemma fsReadFile_ok_inv (root : Entry) (p : List Char) (d : List Nat)
    (h : fsReadFile root p = .ok d) :
    getPathParts p ≠ [] ∧ readAux root (getPathParts p) = .ok d := by
  cases hp : getPathParts p with
  | nil => simp only [fsReadFile, hp] at h; exact absurd h (by simp)
  | cons q qs =>
    simp only [fsReadFile, hp] at h
    cases hr : readAux root (q :: qs) with
    | error e => rw [hr] at h; exact absurd h (by simp)
    | ok d2 =>
      rw [hr] at h
      injection h with h2
      subst h2
      exact ⟨by simp, rfl⟩

lemma fsWriteFile_ok_inv (root : Entry) (p : List Char) (d : List Nat) (r : Entry)
    (h : fsWriteFile root p d = .ok r) :
    getPathParts p ≠ [] ∧ writeAux d root (getPathParts p) = .ok r := by
  cases hp : getPathParts p with
  | nil => simp only [fsWriteFile, hp] at h; exact absurd h (by simp)
  | cons q qs =>
    simp only [fsWriteFile, hp] at h
    cases hr : writeAux d root (q :: qs) with
    | error e => rw [hr] at h; exact absurd h (by simp)
    | ok r2 =>
      rw [hr] at h
      injection h with h2
      subst h2
      exact ⟨by simp, rfl⟩

lemma fsUnlink_ok_inv (root : Entry) (p : List Char) (r : Entry)
    (h : fsUnlink root p = .ok r) :
    getPathParts p ≠ [] ∧ unlinkAux root (getPathParts p) = .ok r := by
  cases hp : getPathParts p with
  | nil => simp only [fsUnlink, hp] at h; exact absurd h (by simp)
  | cons q qs =>
    simp only [fsUnlink, hp] at h
    cases hr : unlinkAux root (q :: qs) with
    | error e => rw [hr] at h; exact absurd h (by simp)
    | ok r2 =>
      rw [hr] at h
      injection h with h2
      subst h2
      exact ⟨by simp, rfl⟩

lemma fsReadFile_of_readAux_ok (root : Entry) (p : List Char) (d : List Nat)
    (hne : getPathParts p ≠ []) (h : readAux root (getPathParts p) = .ok d) :
    fsReadFile root p = .ok d := by
  cases hp : getPathParts p with
  | nil => exact absurd hp hne
  | cons q qs =>
    rw [hp] at h
    simp only [fsReadFile, hp, h]

lemma fsReadFile_of_readAux_error (root : Entry) (p : List Char) (e : JsErr)
    (hne : getPathParts p ≠ []) (h : readAux root (getPathParts p) = .error e) :
    fsReadFile root p = .error (wrapError e p) := by
  cases hp : getPathParts p with
  | nil => exact absurd hp hne
  | cons q qs =>
    rw [hp] at h
    simp only [fsReadFile, hp, h]

lemma fsRename_ok_inv (root : Entry) (a b : List Char) (r2 : Entry)
    (h : fsRename root a b = .ok r2) :
    ∃ d r1, fsReadFile root a = .ok d ∧ fsWriteFile root b d = .ok r1 ∧
      fsUnlink r1 a = .ok r2 := by
  cases hrd : fsReadFile root a with
  | error e => simp only [fsRename, hrd] at h; exact absurd h (by simp)
  | ok d =>
    cases hw : fsWriteFile root b d with
    | error e => simp only [fsRename, hrd, hw] at h; exact absurd h (by simp)
    | ok r1 =>
      cases hu : fsUnlink r1 a with
      | error e => simp only [fsRename, hrd, hw, hu] at h; exact absurd h (by simp)
      | ok r3 =>
        simp only [fsRename, hrd, hw, hu] at h
        injection h with h2
        subst h2
        exact ⟨d, r1, rfl, hw, hu⟩

/- ## Claim C4: write-then-read round trip -/

/-- Claim C4: for every path and byte content on which the adapter writeFile
succeeds, a following readFile with no text encoding returns exactly the
written bytes (zero-length and arbitrary byte values included, since the
content is universally quantified). -/
theorem writeFile_readFile_roundtrip (root : Entry) (p : List Char) (d : List Nat)
    (root2 : Entry) (h : fsWriteFile root p d = .ok root2) :
    fsReadFile root2 p = .ok d := by
  obtain ⟨hne, hw⟩ := fsWriteFile_ok_inv root p d root2 h
  exact fsReadFile_of_readAux_ok root2 p d hne (writeAux_readAux _ root d root2 hw)

/-- Witness for C4 at the nested path slash-a-slash-b with zero-length content. -/
theorem writeFile_readFile_roundtrip_witness :
    fsReadFile (Entry.dir [("a".toList, Entry.dir [("b".toList, Entry.file [])])])
      "/a/b".toList = .ok [] :=
  writeFile_readFile_roundtrip (Entry.dir []) "/a/b".toList []
    (Entry.dir [("a".toList, Entry.dir [("b".toList, Entry.file [])])]) rfl

/- ## Claim C7: rename moves content -/

/-- Claim C7 (amended): for paths resolving to distinct segment lists, when the
old path names an existing file and the read-write-delete rename succeeds,
reading the new path afterwards returns the prior content of the old path, and
reading the old path fails with code ENOENT. -/
theorem rename_roundtrip_distinct_parts (root : Entry) (a b : List Char)
    (d : List Nat) (root2 : Entry)
    (hab : getPathParts a ≠ getPathParts b)
    (hrd : fsReadFile root a = .ok d)
    (hrn : fsRename root a b = .ok root2) :
    fsReadFile root2 b = .ok d ∧
    fsReadFile root2 a = .error (.jsError (some "ENOENT") (enoentMsg a)) := by
  obtain ⟨d2, r1, hrd2, hw, hu⟩ := fsRename_ok_inv root a b root2 hrn
  rw [hrd] at hrd2
  injection hrd2 with hd
  subst hd
  obtain ⟨hbne, hwa⟩ := fsWriteFile_ok_inv root b d r1 hw
  obtain ⟨hane, hua⟩ := fsUnlink_ok_inv r1 a root2 hu
  have hr1 : readAux r1 (getPathParts b) = .ok d := by
    have := writeAux_readAux (getPathParts b) root d r1 hwa
    exact this
  have hr2 : readAux root2 (getPathParts b) = .ok d :=
    unlinkAux_frame (getPathParts a) r1 root2 (getPathParts b) d hua hab hr1
  have hr3 : readAux root2 (getPathParts a) = .error nfErr :=
    unlinkAux_gone (getPathParts a) r1 root2 hua
  refine ⟨fsReadFile_of_readAux_ok root2 b d hbne hr2, ?_⟩
  have := fsReadFile_of_readAux_error root2 a nfErr hane hr3
  simpa [wrapError, nfErr] using this

/-- Counterexample for C7 as stated: the distinct path strings slash-x and x
resolve to the same file, so the rename succeeds but deletes the just-written
file, and reading the new path afterwards fails instead of returning the prior
content. -/
theorem rename_claim_counterexample :
    "/x".toList ≠ "x".toList ∧
    fsReadFile (Entry.dir [("x".toList, Entry.file [1, 2])]) "/x".toList = .ok [1, 2] ∧
    fsRename (Entry.dir [("x".toList, Entry.file [1, 2])]) "/x".toList "x".toList =
      .ok (Entry.dir []) ∧
    fsReadFile (Entry.dir []) "x".toList =
      .error (.jsError (some "ENOENT") (enoentMsg "x".toList)) :=
  ⟨by decide, rfl, rfl, rfl⟩

/-- Witness for C7 at old path slash-x and new path y. -/
theorem rename_roundtrip_witness :
    fsReadFile (Entry.dir [("y".toList, Entry.file [5])]) "y".toList = .ok [5] ∧
    fsReadFile (Entry.dir [("y".toList, Entry.file [5])]) "/x".toList =
      .error (.jsError (some "ENOENT") (enoentMsg "/x".toList)) :=
  rename_roundtrip_distinct_parts (Entry.dir [("x".toList, Entry.file [5])])
    "/x".toList "y".toList [5] (Entry.dir [("y".toList, Entry.file [5])])
    (by decide) rfl rfl

/- ## Path resolver lemmas for idempotence -/

/-- JavaScript Array.prototype.join with a slash separator, the canonical
string form of a segment list (used by writeFile on the parent segments). -/
def joinSlash : List (List Char) → List Char
  | [] => []
  | [a] => a
  | a :: b :: rest => a ++ '/' :: joinSlash (b :: rest)

lemma splitSlash_ne_nil : ∀ xs : List Char, splitSlash xs ≠ [] := by
  intro xs
  induction xs with
  | nil => simp [splitSlash]
  | cons c rest ih =>
    by_cases hc : c = '/'
    · subst hc; simp [splitSlash]
    · simp only [splitSlash, hc]
      cases hs : splitSlash rest <;> simp [hc]

lemma splitSlash_no_slash_mem :
    ∀ (xs : List Char) (s : List Char), s ∈ splitSlash xs → '/' ∉ s := by
  intro xs
  induction xs with
  | nil =>
    intro s hs
    simp [splitSlash] at hs
    subst hs; simp
  | cons c rest ih =>
    intro s hs
    by_cases hc : c = '/'
    · subst hc
      simp [splitSlash] at hs
      rcases hs with h | h
      · subst h; simp
      · exact ih s h
    · simp only [splitSlash, hc] at hs
      cases hr : splitSlash rest with
      | nil => exact absurd hr (splitSlash_ne_nil rest)
      | cons s0 ss =>
        rw [hr] at hs
        simp [hc] at hs
        rcases hs with h | h
        · subst h
          intro hmem
          rcases List.mem_cons.mp hmem with h2 | h2
          · exact hc h2.symm
          · exact ih s0 (by rw [hr]; simp) h2
        · exact ih s (by rw [hr]; simp [h])

lemma splitSlash_of_no_slash (a : List Char) (h : '/' ∉ a) : splitSlash a = [a] := by
  induction a with
  | nil => simp [splitSlash]
  | cons c rest ih =>
    have hc : c ≠ '/' := by
      intro hh; subst hh; exact h (by simp)
    have hrest : '/' ∉ rest := by
      intro hh; exact h (by simp [hh])
    simp only [splitSlash, hc, ih hrest]

lemma splitSlash_append_slash (a ys : List Char) (h : '/' ∉ a) :
    splitSlash (a ++ '/' :: ys) = a :: splitSlash ys := by
  induction a with
  | nil => simp [splitSlash]
  | cons c rest ih =>
    have hc : c ≠ '/' := by
      intro hh; subst hh; exact h (by simp)
    have hrest : '/' ∉ rest := by
      intro hh; exact h (by simp [hh])
    simp only [List.cons_append, splitSlash, hc, ih hrest]

lemma splitSlash_joinSlash :
    ∀ parts : List (List Char), (∀ s ∈ parts, '/' ∉ s) → parts ≠ [] →
      splitSlash (joinSlash parts) = parts := by
  intro parts
  induction parts with
  | nil => intro _ h; exact absurd rfl h
  | cons a rest ih =>
    intro hgood _
    cases rest with
    | nil => simpa [joinSlash] using splitSlash_of_no_slash a (hgood a (by simp))
    | cons b rest2 =>
      have ha : '/' ∉ a := hgood a (by simp)
      have : splitSlash (joinSlash (b :: rest2)) = b :: rest2 :=
        ih (fun s hs => hgood s (by simp [hs])) (by simp)
      simp only [joinSlash, splitSlash_append_slash a _ ha, this]

/- ## normalizePath is the identity on canonical joined segment lists -/

lemma dropLeadingSlash_eq_self (j : List Char) (h : j.head? ≠ some '/') :
    dropLeadingSlash j = j := by
  unfold dropLeadingSlash
  split
  · exact absurd rfl h
  · rfl

lemma dropTrailingSlash_eq_self (j : List Char) (h : j.reverse.head? ≠ some '/') :
    dropTrailingSlash j = j := by
  unfold dropTrailingSlash
  split
  · rename_i r heq
    exact absurd (by rw [heq]; rfl) h
  · rfl

lemma dropTrailingDot_eq_self (j : List Char) (h : ∀ r, j.reverse ≠ '.' :: '/' :: r) :
    dropTrailingDot j = j := by
  unfold dropTrailingDot
  split
  · rename_i r heq
    exact absurd heq (h r)
  · rfl

lemma joinSlash_head (a : List Char) (rest : List (List Char)) (ha : a ≠ []) :
    (joinSlash (a :: rest)).head? = a.head? := by
  cases rest with
  | nil => simp [joinSlash]
  | cons b rest2 =>
    cases a with
    | nil => exact absurd rfl ha
    | cons c a2 => simp [joinSlash]

lemma joinSlash_length_ge (b : List Char) (rest : List (List Char)) :
    b.length ≤ (joinSlash (b :: rest)).length := by
  cases rest with
  | nil => simp [joinSlash]
  | cons r2 rest2 => simp [joinSlash]

lemma joinSlash_singleton_inv (b : List Char) (rest : List (List Char)) (c : Char)
    (hb : b ≠ []) (h : joinSlash (b :: rest) = [c]) : rest = [] ∧ b = [c] := by
  cases rest with
  | nil => exact ⟨rfl, by simpa [joinSlash] using h⟩
  | cons r2 rest2 =>
    exfalso
    have hlen := congrArg List.length h
    simp [joinSlash] at hlen
    have : 1 ≤ b.length := List.length_pos.mpr hb
    omega

lemma joinSlash_reverse_good :
    ∀ parts : List (List Char), parts ≠ [] →
      (∀ s ∈ parts, s ≠ [] ∧ '/' ∉ s ∧ s ≠ ['.']) →
      ∃ c cs, (joinSlash parts).reverse = c :: cs ∧ c ≠ '/' ∧
        (c = '.' → cs.head? ≠ some '/') := by
  intro parts
  induction parts with
  | nil => intro h; exact absurd rfl h
  | cons a rest ih =>
    intro _ hgood
    obtain ⟨ha, hsl, _⟩ := hgood a (by simp)
    cases rest with
    | nil =>
      cases har : a.reverse with
      | nil =>
        exfalso
        exact ha (by simpa using congrArg List.reverse har)
      | cons c cs =>
        refine ⟨c, cs, by simpa [joinSlash] using har, ?_, ?_⟩
        · intro hc
          subst hc
          exact hsl (by rw [← List.mem_reverse, har]; simp)
        · intro _ hcs
          cases cs with
          | nil => simp at hcs
          | cons c2 cs2 =>
            simp at hcs
            subst hcs
            exact hsl (by rw [← List.mem_reverse, har]; simp)
    | cons b rest2 =>
      obtain ⟨c, cs, hrev, hc, hcdot⟩ :=
        ih (by simp) (fun s hs => hgood s (by simp [hs]))
      refine ⟨c, cs ++ '/' :: a.reverse, ?_, hc, ?_⟩
      · simp only [joinSlash, List.reverse_append, List.reverse_cons]
        rw [hrev]
        simp
      · intro hcd
        cases cs with
        | nil =>
          exfalso
          have hj : joinSlash (b :: rest2) = [c] := by
            have := congrArg List.reverse hrev
            simpa using this
          obtain ⟨hb, hsing⟩ := hgood b (by simp)
          obtain ⟨_, hbc⟩ := joinSlash_singleton_inv b rest2 c hb hj
          subst hcd
          exact hgood b (by simp) |>.2.2 hbc
        | cons c2 cs2 =>
          have := hcdot hcd
          simp at this ⊢
          exact this

lemma normalizePath_joinSlash (parts : List (List Char)) (hne : parts ≠ [])
    (hgood : ∀ s ∈ parts, s ≠ [] ∧ '/' ∉ s ∧ s ≠ ['.']) :
    normalizePath (joinSlash parts) = joinSlash parts := by
  obtain ⟨c, cs, hrev, hc, hcdot⟩ := joinSlash_reverse_good parts hne hgood
  have hhead : (joinSlash parts).head? ≠ some '/' := by
    cases parts with
    | nil => exact absurd rfl hne
    | cons a rest =>
      obtain ⟨ha, hsl, _⟩ := hgood a (by simp)
      rw [joinSlash_head a rest ha]
      cases a with
      | nil => exact absurd rfl ha
      | cons c0 a2 =>
        simp
        intro hh
        exact hsl (by simp [hh])
  have h1 := dropLeadingSlash_eq_self (joinSlash parts) hhead
  have h2 : dropTrailingSlash (joinSlash parts) = joinSlash parts := by
    refine dropTrailingSlash_eq_self _ ?_
    rw [hrev]
    simp
    exact fun hh => hc hh
  have h3 : dropTrailingDot (joinSlash parts) = joinSlash parts := by
    refine dropTrailingDot_eq_self _ ?_
    intro r
    rw [hrev]
    intro hh
    have hcd : c = '.' := by
      injection hh with hh1 _
    have hcs : cs = '/' :: r := by
      injection hh with _ hh2
    have := hcdot hcd
    rw [hcs] at this
    simp at this
  rw [normalizePath, h1, h2, h3]

lemma getPathParts_good (p : List Char) :
    ∀ s ∈ getPathParts p, s ≠ [] ∧ '/' ∉ s ∧ s ≠ ['.'] := by
  intro s hs
  unfold getPathParts at hs
  by_cases hn : normalizePath p = []
  · simp [hn] at hs
  · simp only [hn, if_false] at hs
    have hmem := List.mem_of_mem_filter hs
    have hpred := List.of_mem_filter hs
    simp at hpred
    exact ⟨by
      intro hh
      subst hh
      simp at hpred, splitSlash_no_slash_mem _ s hmem, hpred.2⟩

lemma joinSlash_ne_nil (a : List Char) (rest : List (List Char)) (ha : a ≠ []) :
    joinSlash (a :: rest) ≠ [] := by
  cases rest with
  | nil => simpa [joinSlash] using ha
  | cons b rest2 =>
    simp [joinSlash]

/- ## Claim C6: path normalization idempotence and examples -/

/-- Claim C6: re-resolving the canonical joined form of a resolved segment list
gives the same segment list (idempotence of path normalization), and the three
spelled-out examples resolve to the two segments a and b while the empty and
root paths resolve to no segments. -/
theorem getPathParts_idempotent_and_examples :
    (∀ p : List Char, getPathParts (joinSlash (getPathParts p)) = getPathParts p) ∧
    getPathParts "/a/b/".toList = ["a".toList, "b".toList] ∧
    getPathParts "a/b".toList = ["a".toList, "b".toList] ∧
    getPathParts "/a/b/.".toList = ["a".toList, "b".toList] ∧
    getPathParts "".toList = [] ∧
    getPathParts "/".toList = [] := by
  refine ⟨?_, by decide, by decide, by decide, by decide, by decide⟩
  intro p
  cases hp : getPathParts p with
  | nil => simp [joinSlash, getPathParts, normalizePath, dropLeadingSlash,
      dropTrailingSlash, dropTrailingDot]
  | cons a rest =>
    have hgood : ∀ s ∈ (a :: rest), s ≠ [] ∧ '/' ∉ s ∧ s ≠ ['.'] := by
      rw [← hp]
      exact getPathParts_good p
    have hne : (a :: rest) ≠ ([] : List (List Char)) := by simp
    have hnz : joinSlash (a :: rest) ≠ [] :=
      joinSlash_ne_nil a rest (hgood a (by simp)).1
    unfold getPathParts
    rw [normalizePath_joinSlash (a :: rest) hne hgood]
    rw [if_neg hnz]
    rw [splitSlash_joinSlash (a :: rest) (fun s hs => (hgood s hs).2.1) hne]
    rw [List.filter_eq_self.mpr]
    intro s hs
    obtain ⟨h1, _, h3⟩ := hgood s hs
    simp [List.length_pos.mpr h1, h3]

/- ## Claim C5: the error translator -/

lemma wrapError_idem (e : JsErr) (p q : List Char) :
    wrapError (wrapError e p) q = wrapError e p := by
  cases e with
  | jsError c m => cases c <;> rfl
  | domEx name m =>
    by_cases h1 : name = "NotFoundError"
    · simp [wrapError, h1]
    · by_cases h2 : name = "TypeMismatchError"
      · simp [wrapError, h1, h2]
      · by_cases h3 : name = "InvalidModificationError"
        · simp [wrapError, h1, h2, h3]
        · simp [wrapError, h1, h2, h3]

/-- Claim C5: the error translator maps a not-found failure to ENOENT with a
message containing the path, a type-mismatch failure to ENOTDIR, a non-empty
directory removal failure to ENOTEMPTY, and everything else (any other
DOMException or a plain codeless error) to EIO; an error already carrying a
string code passes through unchanged, making the translation idempotent. -/
theorem wrapError_spec (p m : List Char) (c : String) (e : JsErr) (name : String)
    (hname : name ≠ "NotFoundError" ∧ name ≠ "TypeMismatchError" ∧
      name ≠ "InvalidModificationError") :
    wrapError (.domEx "NotFoundError" m) p = .jsError (some "ENOENT") (enoentMsg p) ∧
    (∃ pre post, enoentMsg p = pre ++ p ++ post) ∧
    wrapError (.domEx "TypeMismatchError" m) p =
      .jsError (some "ENOTDIR") (enotdirMsg p) ∧
    wrapError (.domEx "InvalidModificationError" m) p =
      .jsError (some "ENOTEMPTY") (enotemptyMsg p) ∧
    wrapError (.domEx name m) p = .jsError (some "EIO") m ∧
    wrapError (.jsError none m) p = .jsError (some "EIO") m ∧
    wrapError (.jsError (some c) m) p = .jsError (some c) m ∧
    (∀ q, wrapError (wrapError e p) q = wrapError e p) := by
  obtain ⟨h1, h2, h3⟩ := hname
  refine ⟨rfl, ⟨"ENOENT: no such file or directory, ".toList ++ [quoteChar],
    [quoteChar], by simp [enoentMsg]⟩, rfl, rfl, ?_, rfl, rfl,
    fun q => wrapError_idem e p q⟩
  simp [wrapError, h1, h2, h3]

/-- Witness for C5 with the unmapped DOMException name QuotaExceededError. -/
theorem wrapError_spec_witness :
    wrapError (.domEx "QuotaExceededError" "full".toList) "/a".toList =
      .jsError (some "EIO") "full".toList :=
  (wrapError_spec "/a".toList "full".toList "EEXIST" (.jsError none [])
    "QuotaExceededError" (by refine ⟨?_, ?_, ?_⟩ <;> decide)).2.2.2.2.1

/- ## Lemmas about checkRemote and sync -/

lemma checkRemote_preserves (cfg? : Option GitConfig) (st : GitStatus) (env : GitEnv) :
    (checkRemote cfg? st env).2.ahead = st.ahead ∧
    (checkRemote cfg? st env).2.behind = st.behind ∧
    (checkRemote cfg? st env).2.isSyncing = st.isSyncing ∧
    (checkRemote cfg? st env).2.error = st.error := by
  cases cfg? with
  | none => simp [checkRemote]
  | some cfg =>
    simp only [checkRemote, getChanges]
    cases env.statusMatrixResult <;>
      cases env.fetchResult <;>
        cases env.resolveHeadResult <;>
          cases env.resolveRemoteResult <;> simp

lemma syncTail_isSyncing (cfg : GitConfig) (st : GitStatus) (tr : List GitAction)
    (env : GitEnv) (now : Nat) : (syncTail cfg st tr env now).1.isSyncing = false := by
  unfold syncTail
  split
  · unfold push
    cases env.pushResult <;> simp
  · simp

lemma commitAllChanges_commit_error (cfg : GitConfig) (st : GitStatus) (env : GitEnv)
    (msg : String) (m : String) (h : env.commitResult = .error m) :
    commitAllChanges (some cfg) st env msg = (st, []) := by
  unfold commitAllChanges
  cases env.statusMatrixResult with
  | error e => rfl
  | ok rows =>
    simp only []
    split
    · rfl
    · rw [h]

/- ## Claim C1: conflict stops sync -/

/-- Claim C1: when a sync cycle starts (the re-entrancy guard passes) and
checkRemote reports changes on both sides, sync sets hasConflict, stores the
explanatory conflict error, attempts no external git operation at all (in
particular no pull and no push), and leaves the ahead and behind counters
unchanged. -/
theorem sync_conflict_stops (cfg : GitConfig) (st : GitStatus) (env : GitEnv)
    (now : Nat) (hsync : st.isSyncing = false)
    (hcr : (checkRemote (some cfg) { st with isSyncing := true, error := none } env).1 =
      (true, true)) :
    (sync (some cfg) st env now).1.hasConflict = true ∧
    (sync (some cfg) st env now).1.error =
      some "Conflict: both local and remote have changes" ∧
    (sync (some cfg) st env now).2 = [] ∧
    (sync (some cfg) st env now).1.ahead = st.ahead ∧
    (sync (some cfg) st env now).1.behind = st.behind := by
  have hpre :=
    checkRemote_preserves (some cfg) { st with isSyncing := true, error := none } env
  rcases hck : checkRemote (some cfg) { st with isSyncing := true, error := none } env
    with ⟨⟨hR, hL⟩, st2⟩
  rw [hck] at hcr hpre
  have hR1 : hR = true := by
    have := congrArg Prod.fst hcr
    simpa using this
  have hL1 : hL = true := by
    have := congrArg Prod.snd hcr
    simpa using this
  subst hR1
  subst hL1
  have hs : sync (some cfg) st env now =
      ({ st2 with
          hasConflict := true
          error := some "Conflict: both local and remote have changes"
          isSyncing := false }, []) := by
    simp [sync, hsync, hck]
  rw [hs]
  simp at hpre
  exact ⟨rfl, rfl, rfl, hpre.1, hpre.2.1⟩

/-- Witness input for the sync and checkRemote theorems: an idle connected status. -/
def stIdle : GitStatus :=
  { isConnected := true, isSyncing := false, lastSync := none, ahead := 0,
    behind := 0, hasChanges := false, hasConflict := false, error := none }

/-- Witness input: a GitHub-provider configuration. -/
def cfgDemo : GitConfig :=
  { provider := .github, repoUrl := "https://github.com/u/r", branch := "main",
    token := "t", username := "u", syncInterval := .manual,
    conflictResolution := .localSide, autoSync := false }

/-- Witness input: one untracked file locally and a diverged remote head. -/
def envConflict : GitEnv :=
  { statusMatrixResult := .ok [{ filepath := "f".toList, head := 0, workdir := 2, stage := 0 }],
    fetchResult := .ok (), resolveHeadResult := .ok "h",
    resolveRemoteResult := .ok "h2", pullResult := .ok (), pushResult := .ok (),
    addResult := .ok (), stageResult := .ok (), commitResult := .ok (),
    cloneResult := .ok () }

/-- Witness for C1 on the conflicting environment. -/
theorem sync_conflict_stops_witness :
    (sync (some cfgDemo) stIdle envConflict 5).1.hasConflict = true ∧
    (sync (some cfgDemo) stIdle envConflict 5).1.error =
      some "Conflict: both local and remote have changes" ∧
    (sync (some cfgDemo) stIdle envConflict 5).2 = [] ∧
    (sync (some cfgDemo) stIdle envConflict 5).1.ahead = stIdle.ahead ∧
    (sync (some cfgDemo) stIdle envConflict 5).1.behind = stIdle.behind :=
  sync_conflict_stops cfgDemo stIdle envConflict 5 rfl (by decide)

/- ## Claim C2: checkRemote reporting -/

/-- Claim C2: checkRemote is a total function of the collaborator outcomes, so
it never throws to its caller.  A failure of fetch or of either ref resolution
is caught and reported as no changes on either side; a failure of the status
matrix inside getChanges is caught there, so the local side is reported
unchanged.  On full success the two booleans are reported independently (head
divergence and nonempty local change list) and hasConflict is set to exactly
their conjunction. -/
theorem checkRemote_spec (cfg : GitConfig) (st : GitStatus) (env : GitEnv) :
    (threw env.statusMatrixResult = true →
      (checkRemote (some cfg) st env).1.2 = false) ∧
    (threw env.fetchResult = true ∨ threw env.resolveHeadResult = true ∨
        threw env.resolveRemoteResult = true →
      (checkRemote (some cfg) st env).1 = (false, false)) ∧
    (∀ rows localHead remoteHead,
      env.statusMatrixResult = .ok rows →
      env.fetchResult = .ok () →
      env.resolveHeadResult = .ok localHead →
      env.resolveRemoteResult = .ok remoteHead →
      (checkRemote (some cfg) st env).1.1 = decide (localHead ≠ remoteHead) ∧
      (checkRemote (some cfg) st env).1.2 = !(classifyChanges rows).isEmpty ∧
      (checkRemote (some cfg) st env).2.hasConflict =
        ((checkRemote (some cfg) st env).1.1 &&
          (checkRemote (some cfg) st env).1.2)) := by
  refine ⟨?_, ?_, ?_⟩
  · intro hm
    cases hsm : env.statusMatrixResult with
    | ok rows => rw [hsm] at hm; simp [threw] at hm
    | error e =>
      simp only [checkRemote, getChanges, hsm]
      cases env.fetchResult <;>
        cases env.resolveHeadResult <;>
          cases env.resolveRemoteResult <;> simp
  · intro hfail
    cases hsm : env.statusMatrixResult <;>
      cases hfe : env.fetchResult <;>
        cases hrh : env.resolveHeadResult <;>
          cases hrr : env.resolveRemoteResult <;>
            first
            | (simp [checkRemote, getChanges, hsm, hfe, hrh, hrr]; done)
            | (rcases hfail with hf | hf | hf
               · rw [hfe] at hf; simp [threw] at hf
               · rw [hrh] at hf; simp [threw] at hf
               · rw [hrr] at hf; simp [threw] at hf)
  · intro rows localHead remoteHead hsm hfe hrh hrr
    simp [checkRemote, getChanges, hsm, hfe, hrh, hrr]

/-- Witness for C2 on the conflicting environment. -/
theorem checkRemote_spec_witness :
    (checkRemote (some cfgDemo) stIdle envConflict).1.1 = decide (("h" : String) ≠ "h2") ∧
    (checkRemote (some cfgDemo) stIdle envConflict).1.2 =
      !(classifyChanges [{ filepath := "f".toList, head := 0, workdir := 2, stage := 0 }]).isEmpty ∧
    (checkRemote (some cfgDemo) stIdle envConflict).2.hasConflict =
      ((checkRemote (some cfgDemo) stIdle envConflict).1.1 &&
        (checkRemote (some cfgDemo) stIdle envConflict).1.2) :=
  (checkRemote_spec cfgDemo stIdle envConflict).2.2
    [{ filepath := "f".toList, head := 0, workdir := 2, stage := 0 }]
    "h" "h2" rfl rfl rfl rfl

/- ## Claim C3: error handling inside sync -/

/-- Witness input: only local changes, equal heads, and a failing git.commit. -/
def envCommitFails : GitEnv :=
  { statusMatrixResult := .ok [{ filepath := "f".toList, head := 0, workdir := 2, stage := 0 }],
    fetchResult := .ok (), resolveHeadResult := .ok "h",
    resolveRemoteResult := .ok "h", pullResult := .ok (), pushResult := .ok (),
    addResult := .ok (), stageResult := .ok (), commitResult := .error "boom",
    cloneResult := .ok () }

/-- Witness input: the remote fetch throws inside checkRemote. -/
def envFetchFails : GitEnv :=
  { envConflict with fetchResult := .error "net" }

/-- Counterexample for C3 as stated: a failure of the commit step is swallowed
inside commitAllChanges (only logged), so sync finishes with no recorded
error; a failure of the fetch step is swallowed inside checkRemote, so sync
again finishes with no recorded error and still stamps lastSync; and the exit
through the re-entrancy guard returns with isSyncing still true, so isSyncing
is not reset on that exit path. -/
theorem sync_error_claim_counterexample :
    envCommitFails.commitResult = .error "boom" ∧
    (sync (some cfgDemo) stIdle envCommitFails 5).1.error = none ∧
    envFetchFails.fetchResult = .error "net" ∧
    (sync (some cfgDemo) stIdle envFetchFails 5).1.error = none ∧
    (sync (some cfgDemo) stIdle envFetchFails 5).1.lastSync = some 5 ∧
    (sync (some cfgDemo) { stIdle with isSyncing := true } envCommitFails 5).1.isSyncing
      = true :=
  ⟨rfl, by decide, rfl, by decide, by decide, by decide⟩

lemma sync_isSyncing_false (cfg : GitConfig) (st : GitStatus) (env : GitEnv)
    (now : Nat) (hsync : st.isSyncing = false) :
    (sync (some cfg) st env now).1.isSyncing = false := by
  rcases hck : checkRemote (some cfg) { st with isSyncing := true, error := none } env
    with ⟨⟨hR, hL⟩, st2⟩
  rcases hca : commitAllChanges (some cfg) st2 env "Auto-save from Siglum"
    with ⟨st3, tr1⟩
  cases hR <;> cases hL <;>
    cases hpl : env.pullResult <;>
      simp [sync, hsync, hck, hca, pull, hpl, syncTail_isSyncing]

lemma syncTail_push_error (cfg : GitConfig) (st : GitStatus) (tr : List GitAction)
    (env : GitEnv) (now : Nat) (m : String) (ha : st.ahead > 0)
    (hp : env.pushResult = .error m) :
    (syncTail cfg st tr env now).1.error = some m := by
  simp [syncTail, ha, push, hp]

lemma checkRemote_caught (cfg : GitConfig) (st : GitStatus) (env : GitEnv)
    (h : threw env.fetchResult = true ∨ threw env.resolveHeadResult = true ∨
      threw env.resolveRemoteResult = true) :
    checkRemote (some cfg) st env = ((false, false), (getChanges st env).2) := by
  rcases hgc : getChanges st env with ⟨chs, st1⟩
  cases hfe : env.fetchResult <;>
    cases hrh : env.resolveHeadResult <;>
      cases hrr : env.resolveRemoteResult <;>
        first
        | (simp [checkRemote, hgc, hfe, hrh, hrr]; done)
        | (rcases h with hf | hf | hf
           · rw [hfe] at hf; simp [threw] at hf
           · rw [hrh] at hf; simp [threw] at hf
           · rw [hrr] at hf; simp [threw] at hf)

/-- The status sync hands to its final push step, reconstructed from the
checkRemote outcome: after the optional commit of local changes and, when
remote changes exist, the (successful) pull. -/
def statusAtPush (cfg : GitConfig) (st2 : GitStatus) (hR hL : Bool) (env : GitEnv)
    (now : Nat) : GitStatus :=
  let st3 := if hL then (commitAllChanges (some cfg) st2 env "Auto-save from Siglum").1
    else st2
  if hR then (pull (some cfg) st3 env now).2.1 else st3

/-- Claim C3 (amended): sync is a total function of the collaborator outcomes
(no failure propagates to the caller); on every run that passes the
re-entrancy guard, isSyncing is reset to false on exit; a failure thrown by
the pull step is caught inside sync and its message recorded in status.error;
a failure thrown by the push step — on every execution that reaches it,
whether after a commit of local changes, after a pull of remote changes, or
with neither — is caught inside sync and its message recorded in
status.error; a failure inside checkRemote (fetch or ref resolution) or
inside the commit-all step is caught within that method and leaves
status.error unset, with sync still stamping lastSync. -/
theorem sync_error_handling (cfg : GitConfig) (st : GitStatus) (env : GitEnv)
    (now : Nat) (hsync : st.isSyncing = false) :
    (sync (some cfg) st env now).1.isSyncing = false ∧
    (∀ st2 m, checkRemote (some cfg) { st with isSyncing := true, error := none } env =
        ((true, false), st2) →
      env.pullResult = .error m →
      (sync (some cfg) st env now).1.error = some m) ∧
    (∀ hR hL st2 m,
      checkRemote (some cfg) { st with isSyncing := true, error := none } env =
        ((hR, hL), st2) →
      (hR && hL) = false →
      (hR = true → env.pullResult = .ok ()) →
      (statusAtPush cfg st2 hR hL env now).ahead > 0 →
      env.pushResult = .error m →
      (sync (some cfg) st env now).1.error = some m) ∧
    (∀ st2 m, checkRemote (some cfg) { st with isSyncing := true, error := none } env =
        ((false, true), st2) →
      env.commitResult = .error m → st.ahead = 0 →
      (sync (some cfg) st env now).1.error = none ∧
      (sync (some cfg) st env now).1.lastSync = some now) ∧
    (threw env.fetchResult = true ∨ threw env.resolveHeadResult = true ∨
        threw env.resolveRemoteResult = true →
      st.ahead = 0 →
      (sync (some cfg) st env now).1.error = none ∧
      (sync (some cfg) st env now).1.lastSync = some now) := by
  refine ⟨sync_isSyncing_false cfg st env now hsync, ?_, ?_, ?_, ?_⟩
  · intro st2 m hck hpl
    simp [sync, hsync, hck, pull, hpl]
  · intro hR hL st2 m hck hRL hplok hahead hps
    cases hR <;> cases hL
    · simp [statusAtPush] at hahead
      have hs : sync (some cfg) st env now = syncTail cfg st2 [] env now := by
        simp [sync, hsync, hck]
      rw [hs]
      exact syncTail_push_error cfg st2 [] env now m hahead hps
    · rcases hca : commitAllChanges (some cfg) st2 env "Auto-save from Siglum"
        with ⟨st3, tr1⟩
      simp [statusAtPush, hca] at hahead
      have hs : sync (some cfg) st env now = syncTail cfg st3 tr1 env now := by
        simp [sync, hsync, hck, hca]
      rw [hs]
      exact syncTail_push_error cfg st3 tr1 env now m hahead hps
    · have hp0 : env.pullResult = .ok () := hplok rfl
      have hpull : pull (some cfg) st2 env now =
          (.ok (), { st2 with
            isSyncing := false
            error := none
            lastSync := some now
            behind := 0 }, [.pullOp]) := by
        simp [pull, hp0]
      simp [statusAtPush, hpull] at hahead
      have hs : sync (some cfg) st env now = syncTail cfg
          ({ st2 with
            isSyncing := false
            error := none
            lastSync := some now
            behind := 0 }) [GitAction.pullOp] env now := by
        simp [sync, hsync, hck, hpull]
      rw [hs]
      exact syncTail_push_error cfg _ _ env now m hahead hps
    · simp at hRL
  · intro st2 m hck hcm hahead0
    have hpre :=
      checkRemote_preserves (some cfg) { st with isSyncing := true, error := none } env
    rw [hck] at hpre
    simp at hpre
    have hca := commitAllChanges_commit_error cfg st2 env "Auto-save from Siglum" m hcm
    have h2 : ¬ st2.ahead > 0 := by rw [hpre.1, hahead0]; simp
    constructor
    · simp [sync, hsync, hck, hca, syncTail, h2, hpre.2.2.2]
    · simp [sync, hsync, hck, hca, syncTail, h2]
  · intro h ha0
    have hck :=
      checkRemote_caught cfg { st with isSyncing := true, error := none } env h
    have hpre :=
      checkRemote_preserves (some cfg) { st with isSyncing := true, error := none } env
    rw [hck] at hpre
    simp at hpre
    have hna :
        ¬ ((getChanges { st with isSyncing := true, error := none } env).2.ahead > 0) := by
      rw [hpre.1, ha0]; simp
    constructor
    · simp [sync, hsync, hck, syncTail, hna, hpre.2.2.2]
    · simp [sync, hsync, hck, syncTail, hna]

/-- Witness for C3 on the failing-commit environment. -/
theorem sync_error_handling_witness :
    (sync (some cfgDemo) stIdle envCommitFails 7).1.isSyncing = false :=
  (sync_error_handling cfgDemo stIdle envCommitFails 7 rfl).1

/- ## Claim C8: authenticated remote URL derivation -/

/-- Claim C8: for the GitHub provider the derived URL embeds the username (or
the token when the username is empty) and the token in the credential slot
around the stripped and rebuilt repository path ending in dot-git; for the
generic provider credentials are injected into the userinfo component exactly
when the stored URL is https and a token is present, and otherwise the stored
URL is returned unchanged. -/
theorem getRepoUrl_spec (cfg : GitConfig) :
    (cfg.provider = .github →
      getRepoUrl cfg = "https://" ++
        (if cfg.username = "" then cfg.token else cfg.username) ++ ":" ++
        cfg.token ++ "@github.com/" ++
        stripDotGit (stripGithubHost cfg.repoUrl) ++ ".git") ∧
    (cfg.provider = .git → cfg.repoUrl.startsWith "https://" = true →
      cfg.token ≠ "" →
      getRepoUrl cfg =
        urlWithCredentials cfg.repoUrl
          (if cfg.username = "" then "git" else cfg.username) cfg.token) ∧
    (cfg.provider = .git →
      (cfg.repoUrl.startsWith "https://" = false ∨ cfg.token = "") →
      getRepoUrl cfg = cfg.repoUrl) := by
  refine ⟨?_, ?_, ?_⟩
  · intro hp
    simp [getRepoUrl, hp]
  · intro hp hs ht
    simp [getRepoUrl, hp, hs, ht]
  · intro hp hcase
    rcases hcase with h | h <;> simp [getRepoUrl, hp, h]

/-- Witness for C8 on the GitHub-provider demo configuration. -/
theorem getRepoUrl_spec_witness :
    getRepoUrl cfgDemo = "https://" ++
      (if cfgDemo.username = "" then cfgDemo.token else cfgDemo.username) ++ ":" ++
      cfgDemo.token ++ "@github.com/" ++
      stripDotGit (stripGithubHost cfgDemo.repoUrl) ++ ".git" :=
  (getRepoUrl_spec cfgDemo).1 rfl

/- ## Claim C10: behavior without a configuration -/

/-- Claim C10: with no configuration, sync, forcePull and forcePush return
silently leaving the status untouched and performing no git action, while
pull, push, clone and commit throw the Not configured error, also leaving the
status untouched. -/
theorem unconfigured_behavior (st : GitStatus) (env : GitEnv) (now : Nat) :
    sync none st env now = (st, []) ∧
    forcePull none st env now = (st, []) ∧
    forcePush none st env now = (st, []) ∧
    pull none st env now = (.error "Not configured", st, []) ∧
    push none st env now = (.error "Not configured", st, []) ∧
    clone none st env now = (.error "Not configured", st, []) ∧
    commit none st env = (.error "Not configured", st, []) :=
  ⟨rfl, rfl, rfl, rfl, rfl, rfl, rfl⟩

/- ## Claim C9: the metadata directory never appears -/

lemma splitSlash_append (xs ys : List Char) :
    splitSlash (xs ++ '/' :: ys) = splitSlash xs ++ splitSlash ys := by
  induction xs with
  | nil => simp [splitSlash]
  | cons c xs2 ih =>
    by_cases hc : c = '/'
    · subst hc
      simp [splitSlash, ih]
    · simp only [List.cons_append, splitSlash, hc, ih]
      cases hs : splitSlash xs2 with
      | nil => exact absurd hs (splitSlash_ne_nil xs2)
      | cons s ss => simp

lemma childPath_noGit (rp n : List Char) (hn : '/' ∉ n) (hng : n ≠ dotGitChars)
    (hrp : dotGitChars ∉ splitSlash rp) :
    dotGitChars ∉ splitSlash (childPath rp n) := by
  unfold childPath
  by_cases hr : rp = []
  · subst hr
    simp only [if_true, splitSlash, reduceIte]
    rw [splitSlash_of_no_slash n hn]
    intro hmem
    rcases List.mem_cons.mp hmem with h | h
    · exact absurd h.symm (by decide)
    · simp at h
      exact hng h.symm
  · rw [if_neg hr, splitSlash_append, splitSlash_of_no_slash n hn]
    intro hmem
    rcases List.mem_append.mp hmem with h | h
    · exact hrp h
    · simp at h
      exact hng h.symm

lemma buildItems_noGit :
    ∀ (N : Nat) (ch : List (List Char × Entry)) (rp : List Char),
      sizeOf ch ≤ N →
      (∀ p ∈ ch, '/' ∉ p.1) → (∀ p ∈ ch, ValidEntry p.2) →
      dotGitChars ∉ splitSlash rp →
      ∀ q ∈ treePaths (buildItems ch rp), dotGitChars ∉ splitSlash q := by
  intro N
  induction N with
  | zero =>
    intro ch rp hsz _ _ _ q hq
    exfalso
    cases ch <;> simp at hsz
  | succ N ih =>
    intro ch rp hsz hn hv hrp q hq
    cases ch with
    | nil => simp [buildItems, treePaths] at hq
    | cons p rest =>
      rcases p with ⟨n, sub⟩
      have hszrest : sizeOf rest ≤ N := by
        simp at hsz
        omega
      by_cases hng : n = dotGitChars
      · rw [buildItems, if_pos hng] at hq
        exact ih rest rp hszrest (fun p hp => hn p (by simp [hp]))
          (fun p hp => hv p (by simp [hp])) hrp q hq
      · have hnslash : '/' ∉ n := hn (n, sub) (by simp)
        have hip : dotGitChars ∉ splitSlash (childPath rp n) :=
          childPath_noGit rp n hnslash hng hrp
        rw [buildItems, if_neg hng] at hq
        cases sub with
        | file c =>
          simp only [treePaths, itemPathsOf] at hq
          rcases List.mem_cons.mp hq with h | h
          · subst h; exact hip
          · exact ih rest rp hszrest (fun p hp => hn p (by simp [hp]))
              (fun p hp => hv p (by simp [hp])) hrp q h
        | dir ch2 =>
          simp only [treePaths, itemPathsOf, List.append_assoc] at hq
          rcases List.mem_cons.mp hq with h | h
          · subst h; exact hip
          · rcases List.mem_append.mp h with h2 | h2
            · have hvd : ValidEntry (.dir ch2) := hv (n, .dir ch2) (by simp)
              cases hvd with
              | dir _ hn2 hv2 =>
                have hsz2 : sizeOf ch2 ≤ N := by
                  simp at hsz
                  omega
                have : buildFileTree (.dir ch2) (childPath rp n) =
                    buildItems ch2 (childPath rp n) := by rw [buildFileTree]
                rw [this] at h2
                exact ih ch2 (childPath rp n) hsz2 hn2 hv2 hip q h2
            · exact ih rest rp hszrest (fun p hp => hn p (by simp [hp]))
                (fun p hp => hv p (by simp [hp])) hrp q h2

lemma classifyChanges_noGit :
    ∀ (rows : List MatrixRow) (c : FileChange), c ∈ classifyChanges rows →
      listStarts dotGitChars c.path = false := by
  intro rows
  induction rows with
  | nil => simp [classifyChanges]
  | cons r rest ih =>
    intro c hc
    by_cases hs : listStarts dotGitChars r.filepath
    · rw [classifyChanges, if_pos hs] at hc
      exact ih c hc
    · rw [classifyChanges, if_neg hs] at hc
      cases hcr : classifyRow r.head r.workdir r.stage with
      | none =>
        rw [hcr] at hc
        exact ih c hc
      | some s =>
        rw [hcr] at hc
        rcases List.mem_cons.mp hc with h | h
        · subst h
          simpa using hs
        · exact ih c h

lemma listStarts_false_not_under (p : List Char)
    (h : listStarts dotGitChars p = false) :
    p ≠ dotGitChars ∧ ∀ t, p ≠ dotGitChars ++ '/' :: t := by
  constructor
  · intro hh
    subst hh
    simp [listStarts] at h
  · intro t hh
    subst hh
    rw [listStarts] at h
    rw [List.take_left] at h
    simp at h

lemma noGitSeg_not_under (q : List Char) (h : dotGitChars ∉ splitSlash q) :
    q ≠ '/' :: dotGitChars ∧ ∀ t, q ≠ '/' :: (dotGitChars ++ '/' :: t) := by
  constructor
  · intro hh
    subst hh
    refine h ?_
    have : splitSlash dotGitChars = [dotGitChars] :=
      splitSlash_of_no_slash dotGitChars (by decide)
    simp [splitSlash, this]
    decide
  · intro t hh
    subst hh
    refine h ?_
    have h1 : splitSlash ('/' :: (dotGitChars ++ '/' :: t)) =
        [] :: splitSlash (dotGitChars ++ '/' :: t) := by
      simp [splitSlash]
    rw [h1, splitSlash_append,
      splitSlash_of_no_slash dotGitChars (by decide)]
    simp

/-- Claim C9: every path produced by the file-tree rebuild on a valid OPFS
tree contains no dot-git segment — in particular it is not the metadata
directory itself nor anything under it — and the change list never contains a
path equal to dot-git or under it (the source skips every status row whose
path starts with dot-git). -/
theorem noGit_in_tree_and_changes (e : Entry) (rows : List MatrixRow)
    (hval : ValidEntry e) :
    (∀ q ∈ treePaths (buildFileTree e []), dotGitChars ∉ splitSlash q ∧
      q ≠ '/' :: dotGitChars ∧ ∀ t, q ≠ '/' :: (dotGitChars ++ '/' :: t)) ∧
    (∀ c ∈ classifyChanges rows, listStarts dotGitChars c.path = false ∧
      c.path ≠ dotGitChars ∧ ∀ t, c.path ≠ dotGitChars ++ '/' :: t) := by
  constructor
  · intro q hq
    have hseg : dotGitChars ∉ splitSlash q := by
      cases e with
      | file c =>
        rw [buildFileTree] at hq
        simp [treePaths] at hq
      | dir ch =>
        rw [buildFileTree] at hq
        cases hval with
        | dir _ hn hv =>
          exact buildItems_noGit (sizeOf ch) ch [] (le_refl _) hn hv
            (by simp [splitSlash]; decide) q hq
    obtain ⟨h1, h2⟩ := noGitSeg_not_under q hseg
    exact ⟨hseg, h1, h2⟩
  · intro c hc
    have h := classifyChanges_noGit rows c hc
    obtain ⟨h1, h2⟩ := listStarts_false_not_under c.path h
    exact ⟨h, h1, h2⟩

/-- Witness input: a tree holding the metadata directory beside one real file. -/
def entryDemo : Entry :=
  .dir [(dotGitChars, .dir []), ("a".toList, .file [])]

lemma entryDemo_valid : ValidEntry entryDemo := by
  refine ValidEntry.dir _ ?_ ?_
  · intro p hp
    rcases List.mem_cons.mp hp with h | h
    · subst h; decide
    · simp at h; subst h; decide
  · intro p hp
    rcases List.mem_cons.mp hp with h | h
    · subst h
      exact ValidEntry.dir [] (by simp) (by simp)
    · simp at h; subst h
      exact ValidEntry.file []

/-- Witness for C9: the rebuilt tree of the demo entry contains the path
slash-a, which carries no dot-git segment and is not the metadata directory. -/
theorem noGit_in_tree_witness :
    dotGitChars ∉ splitSlash ("/a".toList) ∧ "/a".toList ≠ '/' :: dotGitChars :=
  have h := (noGit_in_tree_and_changes entryDemo
    [{ filepath := "f".toList, head := 1, workdir := 2, stage := 1 }]
    entryDemo_valid).1 "/a".toList (by decide)
  ⟨h.1, h.2.1⟩
